import Mathlib

set_option maxHeartbeats 1000000

/-! Shallow embedding of the N-dimensional tic-tac-toe engine (`src/lib.rs`).

Rust slice indexing panics when out of range; every operation that can panic
is modelled with an `Option` whose `none` value stands for the panic. -/

/-- The two player symbols of tic-tac-toe; `X` plays first. -/
inductive Player where
  | X
  | O
deriving DecidableEq

/-- Rust `impl Not for Player`: the other player. -/
def Player.not : Player → Player
  | Player.X => Player.O
  | Player.O => Player.X

/-- Possible errors returned by `Game.set`. -/
inductive SetError where
  | OutOfBounds
  | Occupied
  | InvalidDimension
  | WrongPlayer
  | GameFinished
deriving DecidableEq

/-- The current state of a game. -/
inductive GameState where
  | Ongoing
  | Victory (p : Player)
  | Draw
deriving DecidableEq

/-- The `Game` struct: a game of tic-tac-toe with a given dimension and board
size. -/
structure Game where
  dimensions : Nat
  board_size : Nat
  states : List (Option Player)
  turns : Nat
  active_player : Player
  game_state : GameState
deriving DecidableEq

/-- Rust `Game::new`; the two `assert_ne!` guards are modelled as `none`
(construction refuses rather than producing a degenerate board). -/
def Game.new (dimensions board_size : Nat) : Option Game :=
  if board_size = 0 then none
  else if dimensions = 0 then none
  else some
    { dimensions := dimensions
      board_size := board_size
      states := List.replicate (board_size ^ dimensions) none
      turns := 0
      active_player := Player.X
      game_state := GameState.Ongoing }

/-- Rust `Game::idx`: fold of `board_size ^ axis * coordinate` over the
enumerated coordinates. -/
def Game.idx (g : Game) (position : List Nat) : Nat :=
  (position.enum).foldl (fun state ip => state + g.board_size ^ ip.1 * ip.2) 0

/-- Guarded list update: Rust `pos[n] = v` panics (`none`) when `n` is out of
range. -/
def setC (l : List Nat) (n : Nat) (v : Nat) : Option (List Nat) :=
  if n < l.length then some (l.set n v) else none

/-- The `while others != 0` digit loop inside `calculate_state`, indexed by
fuel so that it is structurally recursive.  `calculate_state` passes the value
`others` itself as fuel, which always suffices (the loop runs once per base-3
digit of `others`), so the fuel-exhaustion branch is unreachable there. -/
def digitLoop (S i : Nat) : Nat → Nat → Nat → List Nat → Option (List Nat)
  | 0, _, others, pos => if others = 0 then some pos else none
  | fuel + 1, subDim, others, pos =>
    if others = 0 then some pos
    else
      match (match others % 3 with
             | 1 => setC pos subDim i
             | 2 => setC pos subDim (S - 1 - i)
             | _ => some pos) with
      | none => none
      | some pos1 => digitLoop S i fuel (subDim + 1) (others / 3) pos1

/-- The `for i in 0..self.board_size` loop body of `calculate_state` for one
direction `(dim, others)`: `n` counts the remaining sweep steps
(`i + n = board_size`) and `pos` is the mutable position buffer that persists
across steps.  Returns `some true` when all cells matched `player`,
`some false` on the first mismatch (`continue 'other`), `none` on a panic. -/
def Game.lineLoop (g : Game) (player : Player) (dim others : Nat) :
    Nat → Nat → List Nat → Option Bool
  | _, 0, _ => some true
  | i, n + 1, pos =>
    match setC pos dim i with
    | none => none
    | some pos1 =>
      match digitLoop g.board_size i others 0 others pos1 with
      | none => none
      | some pos2 =>
        match g.states[g.idx pos2]? with
        | none => none
        | some c =>
          if c = some player then g.lineLoop player dim others (i + 1) n pos2
          else some false

/-- The `for others in 0..3^dim` loop of `calculate_state`: `o` is the current
value and `n` the number of values still to try. -/
def Game.othersLoop (g : Game) (player : Player) (position : List Nat) (dim : Nat) :
    Nat → Nat → Option Bool
  | _, 0 => some false
  | o, n + 1 =>
    match g.lineLoop player dim o 0 g.board_size position with
    | none => none
    | some true => some true
    | some false => g.othersLoop player position dim (o + 1) n

/-- The `for dim in 0..self.dimensions` loop of `calculate_state`. -/
def Game.dimLoop (g : Game) (player : Player) (position : List Nat) :
    Nat → Nat → Option Bool
  | _, 0 => some false
  | d, n + 1 =>
    match g.othersLoop player position d 0 (3 ^ d) with
    | none => none
    | some true => some true
    | some false => g.dimLoop player position (d + 1) n

/-- Rust `Game::calculate_state`; `none` models a panic inside the sweep. -/
def Game.calculate_state (g : Game) (player : Player) (position : List Nat) :
    Option GameState :=
  match g.dimLoop player position 0 g.dimensions with
  | none => none
  | some true => some (GameState.Victory player)
  | some false =>
    some (if g.turns = g.states.length then GameState.Draw else GameState.Ongoing)

/-- Rust `Game::set`, returning the `Result` together with the post-call state
(the receiver is `&mut self` in Rust); `none` models a panic, and every error
path returns before any mutation, hence carries the unchanged game. -/
def Game.set (g : Game) (player : Player) (position : List Nat) :
    Option (Except SetError GameState × Game) :=
  if g.game_state ≠ GameState.Ongoing then some (Except.error SetError.GameFinished, g)
  else if player ≠ g.active_player then some (Except.error SetError.WrongPlayer, g)
  else if position.length ≠ g.dimensions then some (Except.error SetError.InvalidDimension, g)
  else if (position.all fun p => decide (p < g.board_size)) = false then
    some (Except.error SetError.OutOfBounds, g)
  else
    match g.states[g.idx position]? with
    | none => none
    | some (some _) => some (Except.error SetError.Occupied, g)
    | some none =>
      let g1 : Game :=
        { g with states := g.states.set (g.idx position) (some player), turns := g.turns + 1 }
      match g1.calculate_state player position with
      | none => none
      | some st =>
        some (Except.ok st, { g1 with game_state := st, active_player := player.not })

/-- Reachable games: those produced by `Game.new` or by a successful `set` on a
reachable game. -/
inductive Reachable : Game → Prop where
  | new (D S : Nat) (g : Game) : Game.new D S = some g → Reachable g
  | step (g : Game) (p : Player) (pos : List Nat) (st : GameState) (g' : Game) :
      Reachable g → g.set p pos = some (Except.ok st, g') → Reachable g'

/-! Specification-side notions used to state the claims. -/

/-- Digit `a` of `m` in base 3. -/
def digit3 (m a : Nat) : Nat := m / 3 ^ a % 3

/-- Closed form of the position inspected at sweep step `i` of the code's
direction `(dim, others)` seeded at `seed`: axis `dim` varies with `i`, axes
below `dim` follow the base-3 digits of `others` (1 varies, 2 mirrors to
`S - 1 - i`, 0 keeps the seed coordinate), axes above `dim` keep the seed. -/
def sweepCell (S : Nat) (seed : List Nat) (dim others i : Nat) : List Nat :=
  (List.range seed.length).map fun a =>
    if digit3 others a = 1 then i
    else if digit3 others a = 2 then S - 1 - i
    else if a = dim then i else seed.getD a 0

/-- Modelled from the spec: cell `j` of the spec's direction `m` through
`seed` (one of the `3^D - 1` directions, `1 ≤ m < 3^D`): per axis, base-3
digit 1 varies with `j`, digit 2 mirrors to `S - 1 - j`, digit 0 pins the
seed's coordinate. -/
def specDirCell (S : Nat) (seed : List Nat) (m j : Nat) : List Nat :=
  (List.range seed.length).map fun a =>
    if digit3 m a = 1 then j
    else if digit3 m a = 2 then S - 1 - j
    else seed.getD a 0

/-- Role of one axis in a line through the board: pinned to a fixed
coordinate, varying with the sweep index, or mirrored against it. -/
inductive Role where
  | pin (c : Nat)
  | vary
  | mirror
deriving DecidableEq

/-- Coordinate contributed by a role at sweep step `j`. -/
def roleCoord (S j : Nat) : Role → Nat
  | Role.pin c => c
  | Role.vary => j
  | Role.mirror => S - 1 - j

/-- Modelled from the spec: cell `j` of the line described by `roles`. -/
def lineCell (S : Nat) (roles : List Role) (j : Nat) : List Nat :=
  roles.map (roleCoord S j)

/-- Modelled from the spec: `roles` describes a genuine line of the
`D`-dimensional board of side `S` (axis-aligned, diagonal, or hyper-diagonal,
anywhere on the board): one role per axis, at least one axis not pinned, and
every pinned coordinate on the board. -/
def IsLine (D S : Nat) (roles : List Role) : Prop :=
  roles.length = D ∧ (∃ r ∈ roles, ∀ c, r ≠ Role.pin c) ∧
    ∀ c, Role.pin c ∈ roles → c < S

/-- Total board accessor used by specifications (never out of bounds in the
contexts where it is consulted). -/
def Game.cellAt (g : Game) (pos : List Nat) : Option Player :=
  g.states.getD (g.idx pos) none

/-- Modelled from the spec: the board of `g` contains the complete line
`roles`, all of whose `S` cells are occupied by `q`. -/
def completeLine (g : Game) (q : Player) (roles : List Role) : Prop :=
  IsLine g.dimensions g.board_size roles ∧
  ∀ j < g.board_size, g.cellAt (lineCell g.board_size roles j) = some q

/-- Win of the code's direction `(dim, o)` for `player`, phrased on the closed
form of the sweep cells. -/
def codeWin (g : Game) (player : Player) (seed : List Nat) (dim o : Nat) : Prop :=
  ∀ j < g.board_size, g.cellAt (sweepCell g.board_size seed dim o j) = some player

/-- Win of the spec's direction `m` for `player`. -/
def specWin (g : Game) (player : Player) (seed : List Nat) (m : Nat) : Prop :=
  ∀ j < g.board_size, g.cellAt (specDirCell g.board_size seed m j) = some player

/-- Closed form of `Game.idx`: the mixed-radix value of the coordinate list,
least-significant axis first. -/
def idxSpec (S : Nat) : List Nat → Nat
  | [] => 0
  | p :: ps => p + S * idxSpec S ps

/-- Number of base-3 digits of `o`. -/
def len3 (o : Nat) : Nat :=
  if h : o = 0 then 0 else len3 (o / 3) + 1
termination_by o
decreasing_by exact Nat.div_lt_self (Nat.pos_of_ne_zero h) (by norm_num)

/-- Swap of one base-3 digit: exchanges the varying and mirrored roles. -/
def swap3 : Nat → Nat
  | 1 => 2
  | 2 => 1
  | _ => 0

/-- Digitwise mirror of a direction code. -/
def mir3 (m : Nat) : Nat :=
  if h : m = 0 then 0 else swap3 (m % 3) + 3 * mir3 (m / 3)
termination_by m
decreasing_by exact Nat.div_lt_self (Nat.pos_of_ne_zero h) (by norm_num)

/-- Base-3 digit of one role (0 pinned, 1 varying, 2 mirrored). -/
def roleDigit : Role → Nat
  | Role.pin _ => 0
  | Role.vary => 1
  | Role.mirror => 2

/-- Direction code of a role list, least-significant axis first. -/
def rolesToCode : List Role → Nat
  | [] => 0
  | r :: rs => roleDigit r + 3 * rolesToCode rs

/-- Value written along one axis by the digit loop: digit 1 writes the sweep
index, digit 2 the mirrored index, any other digit leaves the old value. -/
def digitVal (S i d old : Nat) : Nat :=
  if d = 1 then i else if d = 2 then S - 1 - i else old

/-- Invariant carried by the mutable position buffer across sweep steps: the
axes the direction never writes still hold the seed's coordinates. -/
def carryInv (seed pos : List Nat) (dim o : Nat) : Prop :=
  pos.length = seed.length ∧
    ∀ a, digit3 o a = 0 → a ≠ dim → pos.getD a 0 = seed.getD a 0

/-- There is a direction through `seed` that the code's sweep finds. -/
def sweepWin (g : Game) (player : Player) (seed : List Nat) : Prop :=
  ∃ dim, dim < g.dimensions ∧ ∃ o, o < 3 ^ dim ∧ codeWin g player seed dim o

/-- Roles of the code direction `(dim, o)` through `seed`. -/
def sweepRoles (seed : List Nat) (dim o : Nat) : List Role :=
  (List.range seed.length).map fun a =>
    if digit3 o a = 1 then Role.vary
    else if digit3 o a = 2 then Role.mirror
    else if a = dim then Role.vary else Role.pin (seed.getD a 0)

/-- Invariant maintained by every reachable game: positive parameters, a board
of exactly `S^D` cells, a turn counter equal to the number of occupied cells,
and no complete line while the game is still ongoing. -/
def WF (g : Game) : Prop :=
  1 ≤ g.board_size ∧ 1 ≤ g.dimensions ∧
  g.states.length = g.board_size ^ g.dimensions ∧
  g.turns = g.states.countP (fun c => c.isSome) ∧
  (g.game_state = GameState.Ongoing → ∀ (q : Player) (roles : List Role),
    ¬ completeLine g q roles)

/-! Concrete games used by the witnesses. -/

/-- Fresh 1-dimensional game of side 1. -/
def gNew11 : Game :=
  { dimensions := 1, board_size := 1, states := [none], turns := 0,
    active_player := Player.X, game_state := GameState.Ongoing }

/-- The game `gNew11` after `X` plays the only cell: an immediate victory. -/
def gWon11 : Game :=
  { dimensions := 1, board_size := 1, states := [some Player.X], turns := 1,
    active_player := Player.O, game_state := GameState.Victory Player.X }

/-- Fresh 2-dimensional game of side 3. -/
def gNew23 : Game :=
  { dimensions := 2, board_size := 3, states := List.replicate 9 none, turns := 0,
    active_player := Player.X, game_state := GameState.Ongoing }

/-- Fresh 1-dimensional game of side 2. -/
def gNew12 : Game :=
  { dimensions := 1, board_size := 2, states := [none, none], turns := 0,
    active_player := Player.X, game_state := GameState.Ongoing }

/-- The game `gNew12` after `X` plays cell 0. -/
def gMid12 : Game :=
  { dimensions := 1, board_size := 2, states := [some Player.X, none], turns := 1,
    active_player := Player.O, game_state := GameState.Ongoing }

/-- The game `gMid12` after `O` plays cell 1: a draw on the full board. -/
def gDraw12 : Game :=
  { dimensions := 1, board_size := 2, states := [some Player.X, some Player.O],
    turns := 2, active_player := Player.X, game_state := GameState.Draw }

/-- Fresh 3-dimensional game of side 1. -/
def gNew31 : Game :=
  { dimensions := 3, board_size := 1, states := [none], turns := 0,
    active_player := Player.X, game_state := GameState.Ongoing }

/-- The game `gNew31` after `X` plays the only cell. -/
def gWon31 : Game :=
  { dimensions := 3, board_size := 1, states := [some Player.X], turns := 1,
    active_player := Player.O, game_state := GameState.Victory Player.X }


instance : DecidableEq (Except SetError GameState) := fun a b =>
  match a, b with
  | Except.ok x, Except.ok y =>
    if h : x = y then isTrue (by rw [h]) else isFalse (by intro hc; cases hc; exact h rfl)
  | Except.error x, Except.error y =>
    if h : x = y then isTrue (by rw [h]) else isFalse (by intro hc; cases hc; exact h rfl)
  | Except.ok _, Except.error _ => isFalse (by intro hc; cases hc)
  | Except.error _, Except.ok _ => isFalse (by intro hc; cases hc)

/-! Basic lemmas about the flat index. -/

lemma foldl_enumFrom_idx (S : Nat) (l : List Nat) (k acc : Nat) :
    (l.enumFrom k).foldl (fun state ip => state + S ^ ip.1 * ip.2) acc
      = acc + S ^ k * idxSpec S l := by
  induction l generalizing k acc with
  | nil => simp [idxSpec]
  | cons p ps ih =>
    simp only [List.enumFrom_cons, List.foldl_cons, idxSpec, ih, pow_succ]
    ring

lemma Game.idx_eq (g : Game) (pos : List Nat) : g.idx pos = idxSpec g.board_size pos := by
  have h := foldl_enumFrom_idx g.board_size pos 0 0
  simpa [Game.idx, List.enum] using h

lemma idxSpec_lt {S : Nat} (l : List Nat) (h : ∀ x ∈ l, x < S) :
    idxSpec S l < S ^ l.length := by
  induction l with
  | nil => simp [idxSpec]
  | cons p ps ih =>
    have hp : p < S := h p (List.mem_cons_self _ _)
    have hr : idxSpec S ps < S ^ ps.length := ih fun x hx => h x (List.mem_cons_of_mem _ hx)
    calc p + S * idxSpec S ps < S + S * idxSpec S ps := by omega
    _ = S * (idxSpec S ps + 1) := by ring
    _ ≤ S * S ^ ps.length := Nat.mul_le_mul_left _ (by omega)
    _ = S ^ (ps.length + 1) := by rw [pow_succ, Nat.mul_comm]
  
lemma idxSpec_inj {S : Nat} (l₁ l₂ : List Nat) (hlen : l₁.length = l₂.length)
    (h₁ : ∀ x ∈ l₁, x < S) (h₂ : ∀ x ∈ l₂, x < S)
    (heq : idxSpec S l₁ = idxSpec S l₂) : l₁ = l₂ := by
  induction l₁ generalizing l₂ with
  | nil => cases l₂ with
    | nil => rfl
    | cons q qs => simp at hlen
  | cons p ps ih =>
    cases l₂ with
    | nil => simp at hlen
    | cons q qs =>
      have hp : p < S := h₁ p (List.mem_cons_self _ _)
      have hq : q < S := h₂ q (List.mem_cons_self _ _)
      simp only [idxSpec] at heq
      have hpq : p = q := by
        have h1 : (p + S * idxSpec S ps) % S = p := by
          rw [Nat.add_mul_mod_self_left, Nat.mod_eq_of_lt hp]
        have h2 : (q + S * idxSpec S qs) % S = q := by
          rw [Nat.add_mul_mod_self_left, Nat.mod_eq_of_lt hq]
        rw [← h1, ← h2, heq]
      have htail : idxSpec S ps = idxSpec S qs := by
        have hS : 0 < S := by omega
        have := heq
        rw [hpq] at this
        have h3 : S * idxSpec S ps = S * idxSpec S qs := by omega
        exact Nat.eq_of_mul_eq_mul_left hS h3
      have := ih qs (by simpa using hlen) (fun x hx => h₁ x (List.mem_cons_of_mem _ hx))
        (fun x hx => h₂ x (List.mem_cons_of_mem _ hx)) htail
      rw [hpq, this]

lemma idxSpec_replicate_zero (S D : Nat) : idxSpec S (List.replicate D 0) = 0 := by
  induction D with
  | zero => simp [idxSpec]
  | succ n ih => simp [List.replicate_succ, idxSpec, ih]

/-! List helpers. -/

lemma getElem?_eq_some_getD {α : Type} {l : List α} {n : Nat} (h : n < l.length) (d : α) :
    l[n]? = some (l.getD n d) := by
  rw [List.getD_eq_getElem?_getD, List.getElem?_eq_getElem h]
  rfl

lemma getD_of_getElem? {α : Type} {l : List α} {n : Nat} {x d : α} (h : l[n]? = some x) :
    l.getD n d = x := by
  rw [List.getD_eq_getElem?_getD, h]
  rfl

lemma getD_set_self {α : Type} {l : List α} {n : Nat} (h : n < l.length) (v d : α) :
    (l.set n v).getD n d = v := by
  rw [List.getD_eq_getElem?_getD, List.getElem?_set_self', List.getElem?_eq_getElem h]
  rfl

lemma getD_set_ne {α : Type} {l : List α} {n m : Nat} (h : n ≠ m) (v d : α) :
    (l.set n v).getD m d = l.getD m d := by
  rw [List.getD_eq_getElem?_getD, List.getElem?_set_ne h, ← List.getD_eq_getElem?_getD]

lemma countP_set_of_none {l : List (Option Player)} {n : Nat} (h : l[n]? = some none)
    (p : Player) :
    (l.set n (some p)).countP (fun c => c.isSome) = l.countP (fun c => c.isSome) + 1 := by
  induction l generalizing n with
  | nil => simp at h
  | cons a t ih =>
    cases n with
    | zero =>
      simp only [List.getElem?_cons_zero, Option.some_inj] at h
      subst h
      simp [List.countP_cons]
    | succ m =>
      simp only [List.getElem?_cons_succ] at h
      simp only [List.set, List.countP_cons, ih h]
      omega

/-! Base-3 digit lemmas. -/

lemma digit3_lt (m a : Nat) : digit3 m a < 3 := Nat.mod_lt _ (by norm_num)

lemma digit3_of_zero (a : Nat) : digit3 0 a = 0 := by simp [digit3]

lemma digit3_zero (m : Nat) : digit3 m 0 = m % 3 := by simp [digit3]

lemma digit3_succ (m a : Nat) : digit3 m (a + 1) = digit3 (m / 3) a := by
  simp [digit3, pow_succ, Nat.div_div_eq_div_mul, Nat.mul_comm]

lemma digit3_eq_zero_of_lt {m a b : Nat} (hab : a ≤ b) (h : m < 3 ^ a) :
    digit3 m b = 0 := by
  have h2 : m < 3 ^ b := lt_of_lt_of_le h (Nat.pow_le_pow_right (by norm_num) hab)
  simp [digit3, Nat.div_eq_of_lt h2]

lemma len3_zero : len3 0 = 0 := by
  rw [len3]
  simp

lemma len3_of_ne {o : Nat} (h : o ≠ 0) : len3 o = len3 (o / 3) + 1 := by
  rw [len3]
  simp [h]

lemma len3_le_of_lt_pow {o d : Nat} (h : o < 3 ^ d) : len3 o ≤ d := by
  induction d generalizing o with
  | zero =>
    have : o = 0 := by omega
    simp [this, len3_zero]
  | succ e ih =>
    by_cases ho : o = 0
    · simp [ho, len3_zero]
    · rw [len3_of_ne ho]
      have h3 : o < 3 ^ e * 3 := by rw [← pow_succ]; exact h
      have : o / 3 < 3 ^ e := by omega
      exact Nat.succ_le_succ (ih this)

lemma len3_le_self (o : Nat) : len3 o ≤ o := by
  induction o using Nat.strong_induction_on with
  | _ o ih =>
    by_cases ho : o = 0
    · simp [ho, len3_zero]
    · rw [len3_of_ne ho]
      have h1 : o / 3 < o := Nat.div_lt_self (Nat.pos_of_ne_zero ho) (by norm_num)
      have := ih (o / 3) h1
      omega


/-- Full characterization of the digit loop: given enough fuel and enough room
in `pos`, it never panics, preserves the length, and rewrites exactly the
axes `k + a` whose digit `a` of `o` is `1` or `2`. -/
lemma digitLoop_spec (S i : Nat) (o : Nat) :
    ∀ (fuel k : Nat) (pos : List Nat), len3 o ≤ fuel → k + len3 o ≤ pos.length →
    ∃ pos1, digitLoop S i fuel k o pos = some pos1 ∧ pos1.length = pos.length ∧
      ∀ a, pos1.getD a 0 =
        if a < k then pos.getD a 0
        else digitVal S i (digit3 o (a - k)) (pos.getD a 0) := by
  induction o using Nat.strong_induction_on with
  | _ o ih =>
    intro fuel k pos hfuel hroom
    by_cases ho : o = 0
    · subst ho
      refine ⟨pos, ?_, rfl, ?_⟩
      · cases fuel <;> simp [digitLoop]
      · intro a
        simp [digit3_of_zero, digitVal]
    · have hlen : len3 o = len3 (o / 3) + 1 := len3_of_ne ho
      have hfuel1 : 1 ≤ fuel := by omega
      obtain ⟨f, rfl⟩ : ∃ f, fuel = f + 1 := ⟨fuel - 1, by omega⟩
      have hdiv : o / 3 < o := Nat.div_lt_self (Nat.pos_of_ne_zero ho) (by norm_num)
      have hkpos : k < pos.length := by omega
      have hmod : o % 3 = 0 ∨ o % 3 = 1 ∨ o % 3 = 2 := by omega
      -- the three digit cases share the same recursive step
      rcases hmod with hm | hm | hm
      · -- digit 0: no write
        obtain ⟨pos1, heq, hlen1, hget⟩ :=
          ih (o / 3) hdiv f (k + 1) pos (by omega) (by omega)
        refine ⟨pos1, ?_, hlen1, ?_⟩
        · simp only [digitLoop, ho, if_false, hm]
          exact heq
        · intro a
          rcases Nat.lt_trichotomy a k with hak | hak | hak
          · rw [hget a, if_pos (by omega), if_pos hak]
          · subst hak
            rw [hget a, if_pos (by omega), if_neg (by omega)]
            have : digit3 o 0 = 0 := by rw [digit3_zero, hm]
            simp [this, digitVal]
          · rw [hget a, if_neg (by omega), if_neg (by omega)]
            have ha : a - k = (a - (k + 1)) + 1 := by omega
            rw [ha, digit3_succ]
      · -- digit 1: write the sweep index at axis k
        obtain ⟨pos1, heq, hlen1, hget⟩ :=
          ih (o / 3) hdiv f (k + 1) (pos.set k i) (by omega) (by simp; omega)
        refine ⟨pos1, ?_, by simp [hlen1], ?_⟩
        · simp only [digitLoop, ho, if_false, hm, setC, hkpos, if_pos]
          exact heq
        · intro a
          rcases Nat.lt_trichotomy a k with hak | hak | hak
          · rw [hget a, if_pos (by omega), if_pos hak, getD_set_ne (by omega)]
          · subst hak
            rw [hget a, if_pos (by omega), if_neg (by omega)]
            have hd : digit3 o 0 = 1 := by rw [digit3_zero, hm]
            rw [getD_set_self hkpos]
            simp [Nat.sub_self, hd, digitVal]
          · rw [hget a, if_neg (by omega), if_neg (by omega), getD_set_ne (by omega)]
            have ha : a - k = (a - (k + 1)) + 1 := by omega
            rw [ha, digit3_succ]
      · -- digit 2: write the mirrored index at axis k
        obtain ⟨pos1, heq, hlen1, hget⟩ :=
          ih (o / 3) hdiv f (k + 1) (pos.set k (S - 1 - i)) (by omega) (by simp; omega)
        refine ⟨pos1, ?_, by simp [hlen1], ?_⟩
        · simp only [digitLoop, ho, if_false, hm, setC, hkpos, if_pos]
          exact heq
        · intro a
          rcases Nat.lt_trichotomy a k with hak | hak | hak
          · rw [hget a, if_pos (by omega), if_pos hak, getD_set_ne (by omega)]
          · subst hak
            rw [hget a, if_pos (by omega), if_neg (by omega)]
            have hd : digit3 o 0 = 2 := by rw [digit3_zero, hm]
            rw [getD_set_self hkpos]
            simp [Nat.sub_self, hd, digitVal]
          · rw [hget a, if_neg (by omega), if_neg (by omega), getD_set_ne (by omega)]
            have ha : a - k = (a - (k + 1)) + 1 := by omega
            rw [ha, digit3_succ]

/-! Closed-form facts about the sweep cells. -/

lemma list_ext_getD {l₁ l₂ : List Nat} (hlen : l₁.length = l₂.length)
    (h : ∀ a, a < l₁.length → l₁.getD a 0 = l₂.getD a 0) : l₁ = l₂ := by
  apply List.ext_getElem hlen
  intro a h₁ h₂
  have := h a h₁
  rwa [List.getD_eq_getElem _ _ h₁, List.getD_eq_getElem _ _ h₂] at this

lemma sweepCell_length (S : Nat) (seed : List Nat) (dim o i : Nat) :
    (sweepCell S seed dim o i).length = seed.length := by
  simp [sweepCell]

lemma sweepCell_getD {a : Nat} (S : Nat) (seed : List Nat) (dim o i : Nat)
    (ha : a < seed.length) :
    (sweepCell S seed dim o i).getD a 0 =
      if digit3 o a = 1 then i
      else if digit3 o a = 2 then S - 1 - i
      else if a = dim then i else seed.getD a 0 := by
  have h1 : a < (sweepCell S seed dim o i).length := by rwa [sweepCell_length]
  rw [List.getD_eq_getElem _ _ h1]
  simp [sweepCell]

lemma sweepCell_coord_lt {S : Nat} {seed : List Nat} {dim o j : Nat}
    (hS : 1 ≤ S) (hj : j < S) (hseed : ∀ y ∈ seed, y < S) :
    ∀ x ∈ sweepCell S seed dim o j, x < S := by
  intro x hx
  simp only [sweepCell, List.mem_map, List.mem_range] at hx
  obtain ⟨a, ha, rfl⟩ := hx
  split
  · exact hj
  · split
    · omega
    · split
      · exact hj
      · have hmem : seed.getD a 0 ∈ seed := by
          rw [List.getD_eq_getElem _ _ ha]
          exact List.getElem_mem ha
        exact hseed _ hmem


lemma carryInv_seed (seed : List Nat) (dim o : Nat) : carryInv seed seed dim o :=
  ⟨rfl, fun _ _ _ => rfl⟩

lemma carryInv_sweepCell (S : Nat) (seed : List Nat) (dim o i : Nat) :
    carryInv seed (sweepCell S seed dim o i) dim o := by
  refine ⟨sweepCell_length S seed dim o i, ?_⟩
  intro a hd hadim
  by_cases ha : a < seed.length
  · rw [sweepCell_getD S seed dim o i ha, hd]
    simp [hadim]
  · rw [List.getD_eq_default, List.getD_eq_default]
    · omega
    · rw [sweepCell_length]; omega

/-- One sweep step: writing `pos[dim] = i` and running the digit loop on any
buffer satisfying the carry invariant lands exactly on the closed-form
`sweepCell`. -/
lemma digitLoop_sweep {S : Nat} {seed pos : List Nat} {dim o : Nat} (i : Nat)
    (hdim : dim < seed.length) (ho : o < 3 ^ dim)
    (hinv : carryInv seed pos dim o) :
    digitLoop S i o 0 o (pos.set dim i) = some (sweepCell S seed dim o i) := by
  obtain ⟨hplen, hpinv⟩ := hinv
  have hroom : 0 + len3 o ≤ (pos.set dim i).length := by
    have h1 : len3 o ≤ dim := len3_le_of_lt_pow ho
    simp only [List.length_set]
    omega
  obtain ⟨pos1, heq, hlen1, hget⟩ := digitLoop_spec S i o o 0 (pos.set dim i)
    (len3_le_self o) hroom
  rw [heq]
  congr 1
  apply list_ext_getD
  · rw [hlen1, List.length_set, hplen, sweepCell_length]
  · intro a ha
    have ha' : a < seed.length := by
      rw [hlen1, List.length_set, hplen] at ha
      exact ha
    rw [hget a, sweepCell_getD S seed dim o i ha']
    simp only [Nat.not_lt_zero, if_false, Nat.sub_zero, digitVal]
    by_cases h1 : digit3 o a = 1
    · simp [h1]
    · by_cases h2 : digit3 o a = 2
      · simp [h1, h2]
      · have h0 : digit3 o a = 0 := by have := digit3_lt o a; omega
        simp only [h1, h2, if_false]
        by_cases hadim : a = dim
        · subst hadim
          rw [getD_set_self (by omega), if_pos rfl]
        · rw [getD_set_ne (by omega), if_neg hadim]
          exact hpinv a h0 hadim

lemma Game.idx_lt {g : Game} {pos : List Nat} (h : ∀ x ∈ pos, x < g.board_size) :
    g.idx pos < g.board_size ^ pos.length := by
  rw [Game.idx_eq]
  exact idxSpec_lt pos h

lemma states_getElem? {g : Game} {pos : List Nat} (h : g.idx pos < g.states.length) :
    g.states[g.idx pos]? = some (g.cellAt pos) :=
  getElem?_eq_some_getD h none

/-- Full characterization of the innermost sweep loop: under the validation
facts established by `set`, it never panics and succeeds exactly when every
cell of the direction `(dim, o)` is occupied by `player`. -/
lemma lineLoop_spec (g : Game) (player : Player) (seed : List Nat) (dim o : Nat)
    (hdim : dim < seed.length) (ho : o < 3 ^ dim) (hS : 1 ≤ g.board_size)
    (hcoords : ∀ x ∈ seed, x < g.board_size)
    (hstates : g.states.length = g.board_size ^ seed.length) :
    ∀ (n i : Nat) (pos : List Nat), i + n = g.board_size → carryInv seed pos dim o →
    ∃ b, g.lineLoop player dim o i n pos = some b ∧
      (b = true ↔ ∀ j, i ≤ j → j < g.board_size →
        g.cellAt (sweepCell g.board_size seed dim o j) = some player) := by
  intro n
  induction n with
  | zero =>
    intro i pos hin hinv
    refine ⟨true, rfl, ?_⟩
    constructor
    · intro _ j hj1 hj2
      exact absurd hj2 (by omega)
    · intro _
      rfl
  | succ n ih =>
    intro i pos hin hinv
    have hilt : i < g.board_size := by omega
    have hsetC : setC pos dim i = some (pos.set dim i) := by
      unfold setC
      rw [if_pos]
      rw [hinv.1]
      exact hdim
    have hdl := digitLoop_sweep (S := g.board_size) i hdim ho hinv
    have hcoord2 := @sweepCell_coord_lt g.board_size seed dim o i hS hilt hcoords
    have hidx : g.idx (sweepCell g.board_size seed dim o i) < g.states.length := by
      rw [hstates]
      have h2 := Game.idx_lt (g := g) hcoord2
      rwa [sweepCell_length] at h2
    have hcell := states_getElem? hidx
    by_cases hc : g.cellAt (sweepCell g.board_size seed dim o i) = some player
    · obtain ⟨b, hb, hiff⟩ := ih (i + 1) (sweepCell g.board_size seed dim o i) (by omega)
        (carryInv_sweepCell g.board_size seed dim o i)
      refine ⟨b, ?_, ?_⟩
      · rw [Game.lineLoop]
        simp only [hsetC, hdl, hcell]
        rw [if_pos hc]
        exact hb
      · rw [hiff]
        constructor
        · intro hall j hj1 hj2
          rcases Nat.eq_or_lt_of_le hj1 with hji | hji
          · rw [← hji]
            exact hc
          · exact hall j (by omega) hj2
        · intro hall j hj1 hj2
          exact hall j (by omega) hj2
    · refine ⟨false, ?_, ?_⟩
      · rw [Game.lineLoop]
        simp only [hsetC, hdl, hcell]
        rw [if_neg hc]
      · simp only [Bool.false_eq_true, false_iff]
        intro hall
        exact hc (hall i le_rfl hilt)

/-- Characterization of the middle loop over direction codes. -/
lemma othersLoop_spec (g : Game) (player : Player) (seed : List Nat) (dim : Nat)
    (hdim : dim < seed.length) (hS : 1 ≤ g.board_size)
    (hcoords : ∀ x ∈ seed, x < g.board_size)
    (hstates : g.states.length = g.board_size ^ seed.length) :
    ∀ (n o0 : Nat), o0 + n ≤ 3 ^ dim →
    ∃ b, g.othersLoop player seed dim o0 n = some b ∧
      (b = true ↔ ∃ o, o0 ≤ o ∧ o < o0 + n ∧ codeWin g player seed dim o) := by
  intro n
  induction n with
  | zero =>
    intro o0 h
    refine ⟨false, rfl, ?_⟩
    simp only [Bool.false_eq_true, false_iff]
    rintro ⟨o, h1, h2, _⟩
    omega
  | succ n ih =>
    intro o0 h
    obtain ⟨b, hb, hiff⟩ := lineLoop_spec g player seed dim o0 hdim (by omega) hS hcoords
      hstates g.board_size 0 seed (by omega) (carryInv_seed seed dim o0)
    cases b with
    | true =>
      refine ⟨true, ?_, ?_⟩
      · rw [Game.othersLoop, hb]
      · constructor
        · intro _
          refine ⟨o0, le_rfl, by omega, ?_⟩
          intro j hj
          exact (hiff.mp rfl) j (Nat.zero_le j) hj
        · intro _
          rfl
    | false =>
      obtain ⟨b', hb', hiff'⟩ := ih (o0 + 1) (by omega)
      refine ⟨b', ?_, ?_⟩
      · rw [Game.othersLoop, hb]
        exact hb'
      · rw [hiff']
        constructor
        · rintro ⟨o, h1, h2, hw⟩
          exact ⟨o, by omega, by omega, hw⟩
        · rintro ⟨o, h1, h2, hw⟩
          rcases Nat.eq_or_lt_of_le h1 with ho0 | ho0
          · exfalso
            have : (false : Bool) = true := hiff.mpr (fun j _ hj => by
              rw [ho0]
              exact hw j hj)
            simp at this
          · exact ⟨o, by omega, by omega, hw⟩

/-- Characterization of the outer loop over the varying axis. -/
lemma dimLoop_spec (g : Game) (player : Player) (seed : List Nat)
    (hS : 1 ≤ g.board_size)
    (hcoords : ∀ x ∈ seed, x < g.board_size)
    (hstates : g.states.length = g.board_size ^ seed.length) :
    ∀ (n d : Nat), d + n ≤ seed.length →
    ∃ b, g.dimLoop player seed d n = some b ∧
      (b = true ↔ ∃ dim, d ≤ dim ∧ dim < d + n ∧ ∃ o, o < 3 ^ dim ∧
        codeWin g player seed dim o) := by
  intro n
  induction n with
  | zero =>
    intro d h
    refine ⟨false, rfl, ?_⟩
    simp only [Bool.false_eq_true, false_iff]
    rintro ⟨dim, h1, h2, _⟩
    omega
  | succ n ih =>
    intro d h
    obtain ⟨b, hb, hiff⟩ := othersLoop_spec g player seed d (by omega) hS hcoords hstates
      (3 ^ d) 0 (by omega)
    cases b with
    | true =>
      refine ⟨true, ?_, ?_⟩
      · rw [Game.dimLoop, hb]
      · constructor
        · intro _
          obtain ⟨o, _, ho2, hw⟩ := hiff.mp rfl
          exact ⟨d, le_rfl, by omega, o, by omega, hw⟩
        · intro _
          rfl
    | false =>
      obtain ⟨b', hb', hiff'⟩ := ih (d + 1) (by omega)
      refine ⟨b', ?_, ?_⟩
      · rw [Game.dimLoop, hb]
        exact hb'
      · rw [hiff']
        constructor
        · rintro ⟨dim, h1, h2, hw⟩
          exact ⟨dim, by omega, by omega, hw⟩
        · rintro ⟨dim, h1, h2, o, ho, hw⟩
          rcases Nat.eq_or_lt_of_le h1 with hd | hd
          · exfalso
            subst hd
            have hfalse : (false : Bool) = true := hiff.mpr ⟨o, Nat.zero_le o, by omega, hw⟩
            simp at hfalse
          · exact ⟨dim, by omega, by omega, o, ho, hw⟩


/-- Characterization of `calculate_state` under the facts established by
`set`'s validation: it never panics, returns `Victory player` exactly when the
sweep finds a full direction through the seed, and otherwise distinguishes
`Draw` from `Ongoing` by the turn count. -/
lemma calculate_state_spec (g : Game) (player : Player) (seed : List Nat)
    (hlen : seed.length = g.dimensions) (hS : 1 ≤ g.board_size)
    (hcoords : ∀ x ∈ seed, x < g.board_size)
    (hstates : g.states.length = g.board_size ^ g.dimensions) :
    ∃ st, g.calculate_state player seed = some st ∧
      (st = GameState.Victory player ↔ sweepWin g player seed) ∧
      (¬ sweepWin g player seed →
        st = if g.turns = g.states.length then GameState.Draw else GameState.Ongoing) := by
  obtain ⟨b, hb, hiff⟩ := dimLoop_spec g player seed hS hcoords
    (by rw [hstates, hlen]) g.dimensions 0 (by omega)
  cases b with
  | true =>
    refine ⟨GameState.Victory player, ?_, ?_, ?_⟩
    · rw [Game.calculate_state, hb]
    · constructor
      · intro _
        obtain ⟨dim, _, h2, o, ho, hw⟩ := hiff.mp rfl
        exact ⟨dim, by omega, o, ho, hw⟩
      · intro _
        rfl
    · intro hn
      exfalso
      obtain ⟨dim, _, h2, o, ho, hw⟩ := hiff.mp rfl
      exact hn ⟨dim, by omega, o, ho, hw⟩
  | false =>
    refine ⟨if g.turns = g.states.length then GameState.Draw else GameState.Ongoing,
      ?_, ?_, fun _ => rfl⟩
    · rw [Game.calculate_state, hb]
    · constructor
      · intro hst
        exfalso
        by_cases ht : g.turns = g.states.length <;> simp [ht] at hst
      · rintro ⟨dim, h1, o, ho, hw⟩
        exfalso
        have : (false : Bool) = true := hiff.mpr ⟨dim, Nat.zero_le dim, by omega, o, ho, hw⟩
        simp at this

/-! Arithmetic on direction codes. -/

lemma digit3_add_pow_lt {o dim a : Nat} (ha : a < dim) :
    digit3 (o + 3 ^ dim) a = digit3 o a := by
  have hsplit : 3 ^ dim = 3 ^ (dim - a) * 3 ^ a := by
    rw [← pow_add]
    congr 1
    omega
  unfold digit3
  rw [hsplit, Nat.add_mul_div_right _ _ (Nat.pos_pow_of_pos a (by norm_num))]
  have h3 : 3 ∣ 3 ^ (dim - a) := dvd_pow_self 3 (by omega)
  obtain ⟨k, hk⟩ := h3
  rw [hk]
  omega

lemma digit3_add_pow_self {o dim : Nat} (ho : o < 3 ^ dim) :
    digit3 (o + 3 ^ dim) dim = 1 := by
  unfold digit3
  rw [Nat.add_div_right _ (Nat.pos_pow_of_pos dim (by norm_num)),
    Nat.div_eq_of_lt ho]

lemma digit3_add_pow_gt {o dim a : Nat} (ho : o < 3 ^ dim) (ha : dim < a) :
    digit3 (o + 3 ^ dim) a = 0 := by
  apply digit3_eq_zero_of_lt (a := dim + 1) (by omega)
  have : (3:Nat) ^ (dim + 1) = 3 * 3 ^ dim := by rw [pow_succ]; ring
  omega

lemma digit3_mod_pow {m dim a : Nat} (ha : a < dim) :
    digit3 (m % 3 ^ dim) a = digit3 m a := by
  unfold digit3
  rw [Nat.div_mod_eq_mod_mul_div, Nat.div_mod_eq_mod_mul_div,
    Nat.mod_mod_of_dvd]
  rw [← pow_succ]
  exact pow_dvd_pow 3 (by omega)

lemma swap3_lt (x : Nat) : swap3 x < 3 := by
  rcases x with _ | _ | _ | n <;> simp [swap3]

lemma mir3_of_ne {m : Nat} (h : m ≠ 0) : mir3 m = swap3 (m % 3) + 3 * mir3 (m / 3) := by
  rw [mir3]
  simp [h]

lemma mir3_zero : mir3 0 = 0 := by
  rw [mir3]
  simp

lemma digit3_mir3 (m : Nat) : ∀ a, digit3 (mir3 m) a = swap3 (digit3 m a) := by
  induction m using Nat.strong_induction_on with
  | _ m ih =>
    intro a
    by_cases hm : m = 0
    · subst hm
      rw [mir3_zero, digit3_of_zero]
      simp [swap3]
    · rw [mir3_of_ne hm]
      cases a with
      | zero =>
        rw [digit3_zero, digit3_zero]
        have hs := swap3_lt (m % 3)
        omega
      | succ a =>
        rw [digit3_succ, digit3_succ]
        have hdiv : (swap3 (m % 3) + 3 * mir3 (m / 3)) / 3 = mir3 (m / 3) := by
          have hs := swap3_lt (m % 3)
          omega
        rw [hdiv]
        exact ih (m / 3) (Nat.div_lt_self (Nat.pos_of_ne_zero hm) (by norm_num)) a

lemma mir3_lt_pow {m d : Nat} (h : m < 3 ^ d) : mir3 m < 3 ^ d := by
  induction d generalizing m with
  | zero =>
    have : m = 0 := by simpa using h
    subst this
    simpa [mir3_zero] using h
  | succ d ih =>
    by_cases hm : m = 0
    · subst hm
      rw [mir3_zero]
      exact Nat.pos_pow_of_pos _ (by norm_num)
    · rw [mir3_of_ne hm]
      have hpow : (3:Nat) ^ (d + 1) = 3 * 3 ^ d := by rw [pow_succ]; ring
      have hdiv : m / 3 < 3 ^ d := by omega
      have hih := ih hdiv
      have hs := swap3_lt (m % 3)
      omega

/-! Equality of cells between the code's directions and the spec's. -/

lemma specDirCell_add_pow (S : Nat) (seed : List Nat) {dim o : Nat}
    (ho : o < 3 ^ dim) (j : Nat) :
    specDirCell S seed (o + 3 ^ dim) j = sweepCell S seed dim o j := by
  apply List.map_congr_left
  intro a ha
  rw [List.mem_range] at ha
  rcases Nat.lt_trichotomy a dim with h | h | h
  · rw [digit3_add_pow_lt h]
    have hne : a ≠ dim := by omega
    rcases h1 : digit3 o a with _ | _ | _ | n <;> simp [hne]
  · subst h
    rw [digit3_add_pow_self ho]
    have h0 : digit3 o a = 0 := digit3_eq_zero_of_lt le_rfl ho
    simp [h0]
  · rw [digit3_add_pow_gt ho h]
    have h0 : digit3 o a = 0 := digit3_eq_zero_of_lt (le_of_lt h) ho
    have hne : a ≠ dim := by omega
    simp [h0, hne]

lemma specDirCell_canonical (S : Nat) (seed : List Nat) {dim m : Nat}
    (hd1 : digit3 m dim = 1) (hm2 : m < 3 ^ (dim + 1)) (j : Nat) :
    specDirCell S seed m j = sweepCell S seed dim (m % 3 ^ dim) j := by
  apply List.map_congr_left
  intro a ha
  rw [List.mem_range] at ha
  rcases Nat.lt_trichotomy a dim with h | h | h
  · rw [digit3_mod_pow h]
    have hne : a ≠ dim := by omega
    rcases h1 : digit3 m a with _ | _ | _ | n <;> simp [hne]
  · subst h
    have h0 : digit3 (m % 3 ^ a) a = 0 :=
      digit3_eq_zero_of_lt le_rfl (Nat.mod_lt _ (Nat.pos_pow_of_pos a (by norm_num)))
    simp [hd1, h0]
  · have h0m : digit3 m a = 0 := digit3_eq_zero_of_lt (by omega) hm2
    have h0 : digit3 (m % 3 ^ dim) a = 0 :=
      digit3_eq_zero_of_lt (le_of_lt h) (Nat.mod_lt _ (Nat.pos_pow_of_pos dim (by norm_num)))
    have hne : a ≠ dim := by omega
    simp [h0m, h0, hne]

lemma specDirCell_mir3 (S : Nat) (seed : List Nat) (m : Nat) {j : Nat} (hj : j < S) :
    specDirCell S seed (mir3 m) j = specDirCell S seed m (S - 1 - j) := by
  apply List.map_congr_left
  intro a ha
  rw [digit3_mir3]
  rcases h1 : digit3 m a with _ | _ | _ | n
  · simp [swap3]
  · simp [swap3]
  · have hcanc : S - 1 - (S - 1 - j) = j := by omega
    simp [swap3, hcanc]
  · have := digit3_lt m a
    omega

/-- The code's sweep finds a direction exactly when one of the spec's
`3^D - 1` directions through the seed is fully occupied. -/
lemma sweepWin_iff_specWin (g : Game) (player : Player) (seed : List Nat)
    (hlen : seed.length = g.dimensions) :
    sweepWin g player seed ↔
      ∃ m, 1 ≤ m ∧ m < 3 ^ g.dimensions ∧ specWin g player seed m := by
  constructor
  · rintro ⟨dim, hdim, o, ho, hw⟩
    have hpow : (3:Nat) ^ (dim + 1) = 3 * 3 ^ dim := by rw [pow_succ]; ring
    have hpos : 0 < (3:Nat) ^ dim := Nat.pos_pow_of_pos _ (by norm_num)
    refine ⟨o + 3 ^ dim, by omega, ?_, ?_⟩
    · have h2 : (3:Nat) ^ (dim + 1) ≤ 3 ^ g.dimensions :=
        Nat.pow_le_pow_right (by norm_num) (by omega)
      omega
    · intro j hj
      rw [specDirCell_add_pow _ _ ho]
      exact hw j hj
  · rintro ⟨m, hm1, hmD, hw⟩
    have hm0 : m ≠ 0 := by omega
    have hlow : 3 ^ Nat.log 3 m ≤ m := Nat.pow_log_le_self 3 hm0
    have hhigh : m < 3 ^ (Nat.log 3 m + 1) := Nat.lt_pow_succ_log_self (by norm_num) m
    have hpow : (3:Nat) ^ (Nat.log 3 m + 1) = 3 * 3 ^ Nat.log 3 m := by
      rw [pow_succ]; ring
    have hdimD : Nat.log 3 m < g.dimensions := by
      by_contra hcon
      push_neg at hcon
      have : (3:Nat) ^ g.dimensions ≤ 3 ^ Nat.log 3 m :=
        Nat.pow_le_pow_right (by norm_num) hcon
      omega
    have hpos : 0 < (3:Nat) ^ Nat.log 3 m := Nat.pos_pow_of_pos _ (by norm_num)
    have hq : digit3 m (Nat.log 3 m) = 1 ∨ digit3 m (Nat.log 3 m) = 2 := by
      have hq1 : 1 ≤ m / 3 ^ Nat.log 3 m := (Nat.one_le_div_iff hpos).mpr hlow
      have hq3 : m / 3 ^ Nat.log 3 m < 3 := by
        rw [Nat.div_lt_iff_lt_mul hpos]
        omega
      have : digit3 m (Nat.log 3 m) = m / 3 ^ Nat.log 3 m % 3 := rfl
      omega
    rcases hq with hd1 | hd2
    · refine ⟨Nat.log 3 m, hdimD, m % 3 ^ Nat.log 3 m, Nat.mod_lt _ hpos, ?_⟩
      intro j hj
      rw [← specDirCell_canonical g.board_size seed hd1 hhigh j]
      exact hw j hj
    · have hd1' : digit3 (mir3 m) (Nat.log 3 m) = 1 := by
        rw [digit3_mir3, hd2]
        rfl
      have hmir : mir3 m < 3 ^ (Nat.log 3 m + 1) := mir3_lt_pow hhigh
      refine ⟨Nat.log 3 m, hdimD, mir3 m % 3 ^ Nat.log 3 m, Nat.mod_lt _ hpos, ?_⟩
      intro j hj
      rw [← specDirCell_canonical g.board_size seed hd1' hmir j,
        specDirCell_mir3 g.board_size seed m hj]
      exact hw (g.board_size - 1 - j) (by omega)

/-! Role lists versus direction codes. -/

lemma roleDigit_lt (r : Role) : roleDigit r < 3 := by
  cases r <;> simp [roleDigit]

lemma rolesToCode_lt (roles : List Role) : rolesToCode roles < 3 ^ roles.length := by
  induction roles with
  | nil => simp [rolesToCode]
  | cons r rs ih =>
    have hr := roleDigit_lt r
    have hpow : (3:Nat) ^ (rs.length + 1) = 3 * 3 ^ rs.length := by rw [pow_succ]; ring
    simp only [rolesToCode, List.length_cons]
    omega

lemma digit3_rolesToCode (roles : List Role) :
    ∀ a, digit3 (rolesToCode roles) a = roleDigit (roles.getD a (Role.pin 0)) := by
  induction roles with
  | nil =>
    intro a
    simp [rolesToCode, digit3_of_zero, roleDigit]
  | cons r rs ih =>
    intro a
    cases a with
    | zero =>
      rw [digit3_zero]
      have hr := roleDigit_lt r
      simp only [rolesToCode, List.getD_cons_zero]
      omega
    | succ a =>
      rw [digit3_succ]
      have hr := roleDigit_lt r
      have hdiv : (roleDigit r + 3 * rolesToCode rs) / 3 = rolesToCode rs := by omega
      simp only [rolesToCode, hdiv, List.getD_cons_succ]
      exact ih a

lemma rolesToCode_eq_zero {roles : List Role} (h : rolesToCode roles = 0) :
    ∀ r ∈ roles, ∃ c, r = Role.pin c := by
  induction roles with
  | nil => intro r hr; simp at hr
  | cons r rs ih =>
    intro x hx
    simp only [rolesToCode] at h
    have hr : roleDigit r = 0 ∧ rolesToCode rs = 0 := by omega
    rcases List.mem_cons.mp hx with rfl | hx'
    · cases x with
      | pin c => exact ⟨c, rfl⟩
      | vary => simp [roleDigit] at hr
      | mirror => simp [roleDigit] at hr
    · exact ih hr.2 x hx'

lemma specDirCell_length (S : Nat) (seed : List Nat) (m j : Nat) :
    (specDirCell S seed m j).length = seed.length := by
  simp [specDirCell]

lemma specDirCell_getD {a : Nat} (S : Nat) (seed : List Nat) (m j : Nat)
    (ha : a < seed.length) :
    (specDirCell S seed m j).getD a 0 =
      if digit3 m a = 1 then j
      else if digit3 m a = 2 then S - 1 - j
      else seed.getD a 0 := by
  have h1 : a < (specDirCell S seed m j).length := by rwa [specDirCell_length]
  rw [List.getD_eq_getElem _ _ h1]
  simp [specDirCell]

/-- A line whose pinned coordinates agree with the seed has exactly the cells
of the spec direction carrying its role digits. -/
lemma lineCell_eq_specDirCell {S : Nat} {seed : List Nat} {roles : List Role}
    (hlen : roles.length = seed.length)
    (hpin : ∀ a c, a < roles.length → roles.getD a (Role.pin 0) = Role.pin c →
      c = seed.getD a 0)
    (j : Nat) :
    lineCell S roles j = specDirCell S seed (rolesToCode roles) j := by
  apply list_ext_getD
  · simp [lineCell, specDirCell, hlen]
  · intro a ha
    simp only [lineCell, List.length_map] at ha
    have hmap : (roles.map (roleCoord S j)).getD a 0 =
        roleCoord S j (roles.getD a (Role.pin 0)) := by
      have h := List.getD_map roles (Role.pin 0) (roleCoord S j) (n := a)
      simpa [roleCoord] using h
    rw [lineCell, hmap, specDirCell_getD S seed _ j (by omega), digit3_rolesToCode]
    cases hrole : roles.getD a (Role.pin 0) with
    | pin c =>
      have := hpin a c ha hrole
      simp [roleCoord, roleDigit, this]
    | vary => simp [roleCoord, roleDigit]
    | mirror => simp [roleCoord, roleDigit]


lemma sweepRoles_lineCell (S : Nat) (seed : List Nat) (dim o j : Nat) :
    lineCell S (sweepRoles seed dim o) j = sweepCell S seed dim o j := by
  unfold lineCell sweepRoles sweepCell
  rw [List.map_map]
  apply List.map_congr_left
  intro a ha
  simp only [Function.comp]
  split_ifs <;> rfl

lemma sweepRoles_isLine {S : Nat} {seed : List Nat} {dim o : Nat}
    (hdim : dim < seed.length) (ho : o < 3 ^ dim)
    (hseed : ∀ x ∈ seed, x < S) :
    IsLine seed.length S (sweepRoles seed dim o) := by
  refine ⟨by simp [sweepRoles], ?_, ?_⟩
  · refine ⟨Role.vary, ?_, ?_⟩
    · have h0 : digit3 o dim = 0 := digit3_eq_zero_of_lt le_rfl ho
      have : (if digit3 o dim = 1 then Role.vary
          else if digit3 o dim = 2 then Role.mirror
          else if dim = dim then Role.vary else Role.pin (seed.getD dim 0)) = Role.vary := by
        simp [h0]
      rw [← this]
      exact List.mem_map_of_mem _ (List.mem_range.mpr hdim)
    · intro c hc
      cases hc
  · intro c hc
    simp only [sweepRoles, List.mem_map, List.mem_range] at hc
    obtain ⟨a, ha, hEq⟩ := hc
    have hc2 : c = seed.getD a 0 := by
      by_cases h1 : digit3 o a = 1
      · rw [if_pos h1] at hEq
        exact Role.noConfusion hEq
      · rw [if_neg h1] at hEq
        by_cases h2 : digit3 o a = 2
        · rw [if_pos h2] at hEq
          exact Role.noConfusion hEq
        · rw [if_neg h2] at hEq
          by_cases h3 : a = dim
          · rw [if_pos h3] at hEq
            exact Role.noConfusion hEq
          · rw [if_neg h3] at hEq
            injection hEq with h
            exact h.symm
    subst hc2
    have hmem : seed.getD a 0 ∈ seed := by
      rw [List.getD_eq_getElem _ _ ha]
      exact List.getElem_mem ha
    exact hseed _ hmem

/-! Path lemmas for `Game.set`. -/

lemma all_lt_eq_true {pos : List Nat} {S : Nat} (h : ∀ x ∈ pos, x < S) :
    (pos.all fun p => decide (p < S)) = true := by
  rw [List.all_eq_true]
  intro x hx
  simpa using h x hx

lemma set_finished {g : Game} {p : Player} {pos : List Nat}
    (h : g.game_state ≠ GameState.Ongoing) :
    g.set p pos = some (Except.error SetError.GameFinished, g) := by
  unfold Game.set
  rw [if_pos h]

lemma set_wrongPlayer {g : Game} {p : Player} {pos : List Nat}
    (h0 : g.game_state = GameState.Ongoing) (h1 : p ≠ g.active_player) :
    g.set p pos = some (Except.error SetError.WrongPlayer, g) := by
  unfold Game.set
  rw [if_neg (by simp [h0]), if_pos h1]

lemma set_invalidDimension {g : Game} {p : Player} {pos : List Nat}
    (h0 : g.game_state = GameState.Ongoing) (h1 : p = g.active_player)
    (h2 : pos.length ≠ g.dimensions) :
    g.set p pos = some (Except.error SetError.InvalidDimension, g) := by
  unfold Game.set
  rw [if_neg (by simp [h0]), if_neg (by simp [h1]), if_pos h2]

lemma set_outOfBounds {g : Game} {p : Player} {pos : List Nat}
    (h0 : g.game_state = GameState.Ongoing) (h1 : p = g.active_player)
    (h2 : pos.length = g.dimensions) (h3 : ¬ ∀ x ∈ pos, x < g.board_size) :
    g.set p pos = some (Except.error SetError.OutOfBounds, g) := by
  unfold Game.set
  rw [if_neg (by simp [h0]), if_neg (by simp [h1]), if_neg (by simp [h2]), if_pos]
  push_neg at h3
  obtain ⟨x, hmem, hlt⟩ := h3
  rw [List.all_eq_false]
  refine ⟨x, hmem, ?_⟩
  simp
  omega

lemma set_occupied {g : Game} {p : Player} {pos : List Nat} {q : Player}
    (h0 : g.game_state = GameState.Ongoing) (h1 : p = g.active_player)
    (h2 : pos.length = g.dimensions) (h3 : ∀ x ∈ pos, x < g.board_size)
    (h4 : g.states[g.idx pos]? = some (some q)) :
    g.set p pos = some (Except.error SetError.Occupied, g) := by
  unfold Game.set
  rw [if_neg (by simp [h0]), if_neg (by simp [h1]), if_neg (by simp [h2]),
    if_neg (by simp [all_lt_eq_true h3]), h4]

lemma set_success_eq {g : Game} {p : Player} {pos : List Nat} {st : GameState}
    (h0 : g.game_state = GameState.Ongoing) (h1 : p = g.active_player)
    (h2 : pos.length = g.dimensions) (h3 : ∀ x ∈ pos, x < g.board_size)
    (h4 : g.states[g.idx pos]? = some none)
    (h5 : Game.calculate_state
      { g with states := g.states.set (g.idx pos) (some p), turns := g.turns + 1 } p pos
      = some st) :
    g.set p pos = some (Except.ok st,
      { g with states := g.states.set (g.idx pos) (some p), turns := g.turns + 1,
               game_state := st, active_player := p.not }) := by
  unfold Game.set
  rw [if_neg (by simp [h0]), if_neg (by simp [h1]), if_neg (by simp [h2]),
    if_neg (by simp [all_lt_eq_true h3]), h4]
  dsimp only
  rw [h5]

/-- Inversion of a successful `set`: all validation checks passed, the target
cell was free, and the result state is the record update the code performs. -/
lemma set_ok_inv {g : Game} {p : Player} {pos : List Nat} {st : GameState} {g' : Game}
    (h : g.set p pos = some (Except.ok st, g')) :
    g.game_state = GameState.Ongoing ∧ p = g.active_player ∧
    pos.length = g.dimensions ∧ (∀ x ∈ pos, x < g.board_size) ∧
    g.states[g.idx pos]? = some none ∧
    Game.calculate_state
      { g with states := g.states.set (g.idx pos) (some p), turns := g.turns + 1 } p pos
      = some st ∧
    g' = { g with states := g.states.set (g.idx pos) (some p), turns := g.turns + 1,
                  game_state := st, active_player := p.not } := by
  unfold Game.set at h
  split_ifs at h with c1 c2 c3 c4
  · simp at h
  · simp at h
  · simp at h
  · simp at h
  · push_neg at c1
    rcases hq : g.states[g.idx pos]? with _ | oc
    · rw [hq] at h
      simp at h
    · rcases oc with _ | qq
      · rw [hq] at h
        dsimp only at h
        rcases hcs : Game.calculate_state
            { g with states := g.states.set (g.idx pos) (some p), turns := g.turns + 1 }
            p pos with _ | st2
        · rw [hcs] at h
          simp at h
        · rw [hcs] at h
          simp only [Option.some_inj, Prod.mk.injEq, Except.ok.injEq] at h
          obtain ⟨hst, hg'⟩ := h
          subst hst
          push_neg at c2
          refine ⟨c1, c2, not_ne_iff.mp c3, ?_, rfl, rfl, hg'.symm⟩
          intro x hx
          by_contra hxge
          have hfalse : (pos.all fun x => decide (x < g.board_size)) = false := by
            rw [List.all_eq_false]
            exact ⟨x, hx, by simpa using hxge⟩
          exact c4 hfalse
      · rw [hq] at h
        simp at h

/-- Inversion of a failing `set`: every error path returns the unchanged game. -/
lemma set_error_inv {g : Game} {p : Player} {pos : List Nat} {e : SetError} {g' : Game}
    (h : g.set p pos = some (Except.error e, g')) : g' = g := by
  unfold Game.set at h
  split_ifs at h with c1 c2 c3 c4
  · simp only [Option.some_inj, Prod.mk.injEq] at h
    exact h.2.symm
  · simp only [Option.some_inj, Prod.mk.injEq] at h
    exact h.2.symm
  · simp only [Option.some_inj, Prod.mk.injEq] at h
    exact h.2.symm
  · simp only [Option.some_inj, Prod.mk.injEq] at h
    exact h.2.symm
  · rcases hq : g.states[g.idx pos]? with _ | oc
    · rw [hq] at h
      simp at h
    · rcases oc with _ | qq
      · rw [hq] at h
        dsimp only at h
        rcases hcs : Game.calculate_state
            { g with states := g.states.set (g.idx pos) (some p), turns := g.turns + 1 }
            p pos with _ | st2
        · rw [hcs] at h
          simp at h
        · rw [hcs] at h
          simp at h
      · rw [hq] at h
        simp only [Option.some_inj, Prod.mk.injEq] at h
        exact h.2.symm

/-! Well-formedness invariant of reachable games. -/

lemma new_inv {D S : Nat} {g : Game} (h : Game.new D S = some g) :
    S ≠ 0 ∧ D ≠ 0 ∧
    g = { dimensions := D, board_size := S,
          states := List.replicate (S ^ D) none, turns := 0,
          active_player := Player.X, game_state := GameState.Ongoing } := by
  unfold Game.new at h
  split_ifs at h with c1 c2
  · exact ⟨c1, c2, by simpa using h.symm⟩

lemma countP_isSome_replicate_none (n : Nat) :
    (List.replicate n (none : Option Player)).countP (fun c => c.isSome) = 0 := by
  induction n with
  | zero => simp
  | succ k ih => simp [List.replicate_succ, List.countP_cons, ih]

lemma getD_replicate_none (n i : Nat) :
    (List.replicate n (none : Option Player)).getD i none = none := by
  by_cases hi : i < n
  · rw [List.getD_eq_getElem _ _ (by simpa using hi)]
    simp
  · exact List.getD_eq_default _ _ (by simpa using hi)

lemma lineCell_length (S : Nat) (roles : List Role) (j : Nat) :
    (lineCell S roles j).length = roles.length := by
  simp [lineCell]

lemma lineCell_getD (S : Nat) (roles : List Role) (j a : Nat) :
    (lineCell S roles j).getD a 0 = roleCoord S j (roles.getD a (Role.pin 0)) := by
  have h := List.getD_map roles (Role.pin 0) (roleCoord S j) (n := a)
  simpa [lineCell, roleCoord] using h

lemma lineCell_coord_lt {D S : Nat} {roles : List Role} {j : Nat}
    (hIs : IsLine D S roles) (hS : 1 ≤ S) (hj : j < S) :
    ∀ x ∈ lineCell S roles j, x < S := by
  intro x hx
  simp only [lineCell, List.mem_map] at hx
  obtain ⟨r, hr, rfl⟩ := hx
  cases r with
  | pin c => exact hIs.2.2 c hr
  | vary => exact hj
  | mirror =>
    simp only [roleCoord]
    omega

lemma idx_ne_of_ne {g : Game} {l₁ l₂ : List Nat} (hlen : l₁.length = l₂.length)
    (h₁ : ∀ x ∈ l₁, x < g.board_size) (h₂ : ∀ x ∈ l₂, x < g.board_size)
    (hne : l₁ ≠ l₂) : g.idx l₁ ≠ g.idx l₂ := by
  intro he
  rw [Game.idx_eq, Game.idx_eq] at he
  exact hne (idxSpec_inj _ _ hlen h₁ h₂ he)


lemma WF_new {D S : Nat} {g : Game} (h : Game.new D S = some g) : WF g := by
  obtain ⟨hS, hD, rfl⟩ := new_inv h
  refine ⟨by show 1 ≤ S; omega, by show 1 ≤ D; omega, by simp, ?_, ?_⟩
  · rw [countP_isSome_replicate_none]
  · intro _ q roles hline
    obtain ⟨hIs, hcells⟩ := hline
    have h0 := hcells 0 (by simp; omega)
    rw [Game.cellAt, getD_replicate_none] at h0
    cases h0

/-- Central soundness lemma: any complete line present after a successful
placement passes through the placed cell, belongs to the placing player, and
the stored outcome is that player's victory. -/
lemma completeLine_cases {g : Game} {p : Player} {pos : List Nat} {st : GameState}
    {g' : Game} (hwf : WF g) (h : g.set p pos = some (Except.ok st, g'))
    {q : Player} {roles : List Role} (hline : completeLine g' q roles) :
    st = GameState.Victory p ∧ q = p := by
  obtain ⟨hS, hD, hstates, hturns, hnoline⟩ := hwf
  obtain ⟨h0, h1, h2, h3, h4, h5, hg'⟩ := set_ok_inv h
  subst hg'
  have hidx0 : g.idx pos < g.states.length := by
    by_contra hge
    rw [List.getElem?_eq_none (by omega)] at h4
    cases h4
  obtain ⟨hIs, hcells⟩ := hline
  have hIs' : IsLine g.dimensions g.board_size roles := hIs
  have hcells' : ∀ j, j < g.board_size →
      (g.states.set (g.idx pos) (some p)).getD
        (g.idx (lineCell g.board_size roles j)) none = some q := hcells
  by_cases hthrough : ∃ j0, j0 < g.board_size ∧ lineCell g.board_size roles j0 = pos
  · obtain ⟨j0, hj0, hj0eq⟩ := hthrough
    have hqp : q = p := by
      have hcell := hcells' j0 hj0
      rw [hj0eq, getD_set_self hidx0] at hcell
      exact (Option.some_inj.mp hcell).symm
    rw [hqp] at hcells'
    have hlenroles : roles.length = pos.length := by
      rw [hIs'.1, h2]
    have hpin : ∀ a c, a < roles.length → roles.getD a (Role.pin 0) = Role.pin c →
        c = pos.getD a 0 := by
      intro a c ha hrole
      have hgetD : (lineCell g.board_size roles j0).getD a 0 = pos.getD a 0 := by
        rw [hj0eq]
      rw [lineCell_getD, hrole] at hgetD
      exact hgetD
    have hcellseq : ∀ j, lineCell g.board_size roles j
        = specDirCell g.board_size pos (rolesToCode roles) j :=
      lineCell_eq_specDirCell hlenroles hpin
    have hm1 : 1 ≤ rolesToCode roles := by
      by_contra hc
      have hzero : rolesToCode roles = 0 := by omega
      obtain ⟨r, hr, hrnp⟩ := hIs'.2.1
      obtain ⟨c, hc'⟩ := rolesToCode_eq_zero hzero r hr
      exact hrnp c hc'
    have hmD : rolesToCode roles < 3 ^ g.dimensions := by
      have hlt := rolesToCode_lt roles
      rwa [hIs'.1] at hlt
    obtain ⟨st2, hst2, hiffV, hother⟩ := calculate_state_spec
      { g with states := g.states.set (g.idx pos) (some p), turns := g.turns + 1 }
      p pos h2 hS h3 (by simpa using hstates)
    rw [h5] at hst2
    injection hst2 with hst2
    subst hst2
    have hspec : specWin
        { g with states := g.states.set (g.idx pos) (some p), turns := g.turns + 1 }
        p pos (rolesToCode roles) := by
      intro j hj
      show (g.states.set (g.idx pos) (some p)).getD
        (g.idx (specDirCell g.board_size pos (rolesToCode roles) j)) none = some p
      rw [← hcellseq j]
      exact hcells' j hj
    have hsweep : sweepWin
        { g with states := g.states.set (g.idx pos) (some p), turns := g.turns + 1 }
        p pos :=
      (sweepWin_iff_specWin
        { g with states := g.states.set (g.idx pos) (some p), turns := g.turns + 1 }
        p pos h2).mpr ⟨rolesToCode roles, hm1, hmD, hspec⟩
    exact ⟨hiffV.mpr hsweep, hqp⟩
  · exfalso
    push_neg at hthrough
    have hcellsg : ∀ j, j < g.board_size →
        g.cellAt (lineCell g.board_size roles j) = some q := by
      intro j hj
      have hcoordsline := lineCell_coord_lt hIs' hS hj
      have hlen2 : (lineCell g.board_size roles j).length = pos.length := by
        rw [lineCell_length, hIs'.1, h2]
      have hne := idx_ne_of_ne (g := g) hlen2 hcoordsline h3 (hthrough j hj)
      have hcell := hcells' j hj
      rw [getD_set_ne (Ne.symm hne)] at hcell
      exact hcell
    exact hnoline h0 q roles ⟨hIs', hcellsg⟩

/-- A reported victory always exhibits a complete line for the placing
player on the resulting board. -/
lemma victory_to_line {g : Game} {p : Player} {pos : List Nat} {st : GameState}
    {g' : Game} (hwf : WF g) (h : g.set p pos = some (Except.ok st, g'))
    {q : Player} (hst : st = GameState.Victory q) :
    q = p ∧ ∃ roles, completeLine g' q roles := by
  obtain ⟨hS, hD, hstates, hturns, hnoline⟩ := hwf
  obtain ⟨h0, h1, h2, h3, h4, h5, hg'⟩ := set_ok_inv h
  subst hg'
  obtain ⟨st2, hst2, hiffV, hother⟩ := calculate_state_spec
    { g with states := g.states.set (g.idx pos) (some p), turns := g.turns + 1 }
    p pos h2 hS h3 (by simpa using hstates)
  rw [h5] at hst2
  injection hst2 with hst2
  subst hst2
  have hsweep : sweepWin
      { g with states := g.states.set (g.idx pos) (some p), turns := g.turns + 1 }
      p pos := by
    by_cases hw : sweepWin
        { g with states := g.states.set (g.idx pos) (some p), turns := g.turns + 1 }
        p pos
    · exact hw
    · exfalso
      have hoth := hother hw
      rw [hst] at hoth
      split at hoth <;> exact GameState.noConfusion hoth
  have hqp : q = p := by
    have hv := hiffV.mpr hsweep
    rw [hst] at hv
    cases hv
    rfl
  obtain ⟨dim, hdim, o, ho, hw⟩ := hsweep
  refine ⟨hqp, ⟨sweepRoles pos dim o, ?_, ?_⟩⟩
  · have hIsr := @sweepRoles_isLine g.board_size pos dim o (by rw [h2]; exact hdim) ho h3
    show IsLine g.dimensions g.board_size (sweepRoles pos dim o)
    rwa [h2] at hIsr
  · intro j hj
    show (g.states.set (g.idx pos) (some p)).getD
      (g.idx (lineCell g.board_size (sweepRoles pos dim o) j)) none = some q
    rw [sweepRoles_lineCell, hqp]
    exact hw j hj

/-- Well-formedness is preserved by every successful placement. -/
lemma WF_step {g : Game} {p : Player} {pos : List Nat} {st : GameState} {g' : Game}
    (hwf : WF g) (h : g.set p pos = some (Except.ok st, g')) : WF g' := by
  have hwf' := hwf
  obtain ⟨hS, hD, hstates, hturns, hnoline⟩ := hwf'
  obtain ⟨h0, h1, h2, h3, h4, h5, hg'⟩ := set_ok_inv h
  subst hg'
  refine ⟨hS, hD, ?_, ?_, ?_⟩
  · show (g.states.set (g.idx pos) (some p)).length = g.board_size ^ g.dimensions
    simpa using hstates
  · show g.turns + 1 = (g.states.set (g.idx pos) (some p)).countP (fun c => c.isSome)
    rw [countP_set_of_none h4, hturns]
  · intro hOngoing q roles hline
    have hcase := completeLine_cases hwf h hline
    have hstO : st = GameState.Ongoing := hOngoing
    rw [hcase.1] at hstO
    cases hstO

/-- Every reachable game is well-formed. -/
lemma reach_wf {g : Game} (h : Reachable g) : WF g := by
  induction h with
  | new D S g hnew => exact WF_new hnew
  | step g p pos st g' _ hset ih => exact WF_step ih hset

/-- Under the invariant no call to `set` can panic: every slice access is in
bounds, so the result is always `some` (an error or a success). -/
lemma set_ne_none {g : Game} (hwf : WF g) (p : Player) (pos : List Nat) :
    g.set p pos ≠ none := by
  obtain ⟨hS, hD, hstates, hturns, hnoline⟩ := hwf
  by_cases h0 : g.game_state = GameState.Ongoing
  · by_cases h1 : p = g.active_player
    · by_cases h2 : pos.length = g.dimensions
      · by_cases h3 : ∀ x ∈ pos, x < g.board_size
        · have hidx : g.idx pos < g.states.length := by
            rw [hstates, ← h2]
            exact Game.idx_lt h3
          have hq := states_getElem? hidx
          rcases hc : g.cellAt pos with _ | q2
          · rw [hc] at hq
            obtain ⟨st, hst, _, _⟩ := calculate_state_spec
              { g with states := g.states.set (g.idx pos) (some p), turns := g.turns + 1 }
              p pos h2 hS h3 (by simpa using hstates)
            rw [set_success_eq h0 h1 h2 h3 hq hst]
            simp
          · rw [hc] at hq
            rw [set_occupied h0 h1 h2 h3 hq]
            simp
        · rw [set_outOfBounds h0 h1 h2 h3]
          simp
      · rw [set_invalidDimension h0 h1 h2]
        simp
    · rw [set_wrongPlayer h0 h1]
      simp
  · rw [set_finished h0]
    simp

lemma wf_turns_le {g : Game} (hwf : WF g) :
    g.turns ≤ g.board_size ^ g.dimensions := by
  obtain ⟨_, _, hstates, hturns, _⟩ := hwf
  rw [hturns, ← hstates]
  exact List.countP_le_length _

lemma set_ok_turns {g : Game} {p : Player} {pos : List Nat} {st : GameState} {g' : Game}
    (h : g.set p pos = some (Except.ok st, g')) : g'.turns = g.turns + 1 := by
  obtain ⟨_, _, _, _, _, _, hg'⟩ := set_ok_inv h
  rw [hg']

lemma set_ok_active {g : Game} {p : Player} {pos : List Nat} {st : GameState} {g' : Game}
    (h : g.set p pos = some (Except.ok st, g')) : g'.active_player = p.not := by
  obtain ⟨_, _, _, _, _, _, hg'⟩ := set_ok_inv h
  rw [hg']

lemma set_ok_game_state {g : Game} {p : Player} {pos : List Nat} {st : GameState}
    {g' : Game} (h : g.set p pos = some (Except.ok st, g')) : g'.game_state = st := by
  obtain ⟨_, _, _, _, _, _, hg'⟩ := set_ok_inv h
  rw [hg']

lemma set_ok_sizes {g : Game} {p : Player} {pos : List Nat} {st : GameState} {g' : Game}
    (h : g.set p pos = some (Except.ok st, g')) :
    g'.board_size = g.board_size ∧ g'.dimensions = g.dimensions := by
  obtain ⟨_, _, _, _, _, _, hg'⟩ := set_ok_inv h
  rw [hg']
  exact ⟨rfl, rfl⟩

/-- Only the placing player can be reported as the winner. -/
lemma victory_only_placer {g : Game} {p : Player} {pos : List Nat} {st : GameState}
    {g' : Game} (hwf : WF g) (h : g.set p pos = some (Except.ok st, g')) :
    ∀ q, st = GameState.Victory q → q = p :=
  fun _ hst => (victory_to_line hwf h hst).1

/-- If no direction through the seed wins, the outcome is decided by the turn
count: `Draw` exactly on a full board. -/
lemma set_ok_draw_or_ongoing {g : Game} {p : Player} {pos : List Nat} {st : GameState}
    {g' : Game} (hwf : WF g) (h : g.set p pos = some (Except.ok st, g'))
    (hnv : ∀ q, st ≠ GameState.Victory q) :
    st = if g'.turns = g.board_size ^ g.dimensions then GameState.Draw
         else GameState.Ongoing := by
  obtain ⟨hS, hD, hstates, hturns, hnoline⟩ := hwf
  obtain ⟨h0, h1, h2, h3, h4, h5, hg'⟩ := set_ok_inv h
  obtain ⟨st2, hst2, hiffV, hother⟩ := calculate_state_spec
    { g with states := g.states.set (g.idx pos) (some p), turns := g.turns + 1 }
    p pos h2 hS h3 (by simpa using hstates)
  rw [h5] at hst2
  injection hst2 with hst2
  subst hst2
  have hnw : ¬ sweepWin
      { g with states := g.states.set (g.idx pos) (some p), turns := g.turns + 1 }
      p pos := by
    intro hw
    exact hnv p (hiffV.mpr hw)
  have hoth := hother hnw
  rw [hg']
  show st = if g.turns + 1 = g.board_size ^ g.dimensions then GameState.Draw
    else GameState.Ongoing
  rw [hoth]
  show (if g.turns + 1 = (g.states.set (g.idx pos) (some p)).length then GameState.Draw
    else GameState.Ongoing) = _
  rw [show (g.states.set (g.idx pos) (some p)).length = g.board_size ^ g.dimensions from
    by simpa using hstates]

lemma getD_replicate_zero (n i : Nat) :
    (List.replicate n (0 : Nat)).getD i 0 = 0 := by
  by_cases hi : i < n
  · rw [List.getD_eq_getElem _ _ (by simpa using hi)]
    simp
  · exact List.getD_eq_default _ _ (by simpa using hi)

lemma idxSpec_eq_zero {S : Nat} {l : List Nat} (h : ∀ x ∈ l, x = 0) :
    idxSpec S l = 0 := by
  induction l with
  | nil => rfl
  | cons p ps ih =>
    have hp : p = 0 := h p (List.mem_cons_self _ _)
    have hps := ih fun x hx => h x (List.mem_cons_of_mem _ hx)
    simp [idxSpec, hp, hps]

/-- When a player occupies flat cell 0 and every coordinate of the seed is 0,
the first direction tried by the sweep (axis 0 forward, all others pinned) is
already complete on a board of side length 1. -/
lemma calc_state_one {g1 : Game} (hb : g1.board_size = 1) (hD : 1 ≤ g1.dimensions)
    (p : Player) (seed : List Nat) (hlen : seed.length = g1.dimensions)
    (hseed0 : ∀ x ∈ seed, x = 0)
    (hcell : g1.states.getD 0 none = some p)
    (hstates : g1.states.length = g1.board_size ^ g1.dimensions) :
    g1.calculate_state p seed = some (GameState.Victory p) := by
  have h3 : ∀ x ∈ seed, x < g1.board_size := by
    intro x hx
    rw [hseed0 x hx, hb]
    omega
  obtain ⟨st2, hst2, hiffV, hother⟩ :=
    calculate_state_spec g1 p seed hlen (by omega) h3 hstates
  have hwin : sweepWin g1 p seed := by
    refine ⟨0, by omega, 0, by norm_num, ?_⟩
    intro j hj
    rw [hb] at hj
    have hj0 : j = 0 := by omega
    subst hj0
    have hzero : ∀ x ∈ sweepCell g1.board_size seed 0 0 0, x = 0 := by
      intro x hx
      simp only [sweepCell, List.mem_map, List.mem_range] at hx
      obtain ⟨a, ha, rfl⟩ := hx
      rw [digit3_of_zero]
      rw [if_neg (show ¬(0:Nat) = 1 by omega), if_neg (show ¬(0:Nat) = 2 by omega)]
      split
      · rfl
      · have hmem : seed.getD a 0 ∈ seed := by
          rw [List.getD_eq_getElem _ _ ha]
          exact List.getElem_mem ha
        exact hseed0 _ hmem
    show g1.states.getD (g1.idx (sweepCell g1.board_size seed 0 0 0)) none = some p
    rw [Game.idx_eq, idxSpec_eq_zero hzero]
    exact hcell
  have hst : st2 = GameState.Victory p := hiffV.mpr hwin
  rw [← hst]
  exact hst2

/-- On a board of side length 1 the very first placement is an immediate win:
the all-zero cell alone fills every direction through itself. -/
lemma single_cell_win {D : Nat} (hD : 1 ≤ D) {g : Game} (hnew : Game.new D 1 = some g) :
    ∃ g', g.set Player.X (List.replicate D 0)
      = some (Except.ok (GameState.Victory Player.X), g') := by
  obtain ⟨hS1, hD1, rfl⟩ := new_inv hnew
  have hone : (1:Nat) ^ D = 1 := one_pow D
  have h2 : (List.replicate D 0).length = D := List.length_replicate _ _
  have h3 : ∀ x ∈ List.replicate D 0, x < 1 := by
    intro x hx
    rw [List.eq_of_mem_replicate hx]
    omega
  have hseed0 : ∀ x ∈ List.replicate D 0, x = 0 :=
    fun x hx => List.eq_of_mem_replicate hx
  have hlenstates : (List.replicate ((1:Nat) ^ D) (none : Option Player)).length = 1 := by
    simp [hone]
  refine ⟨_, set_success_eq rfl rfl h2 h3 ?_ ?_⟩
  · rw [show Game.idx _ (List.replicate D 0) = 0 from by
      rw [Game.idx_eq]
      exact idxSpec_eq_zero hseed0]
    rw [getElem?_eq_some_getD (by simp [hone]) (none : Option Player), getD_replicate_none]
  · apply calc_state_one rfl hD Player.X (List.replicate D 0) h2 hseed0
    · rw [show Game.idx _ (List.replicate D 0) = 0 from by
        rw [Game.idx_eq]
        exact idxSpec_eq_zero hseed0]
      exact getD_set_self (by simp [hone]) _ _
    · show ((List.replicate ((1:Nat) ^ D) (none : Option Player)).set _ _).length
        = 1 ^ D
      simp



/-! The claims. -/

/-- C1: for every reachable game, after any successful call to `set` the
resulting (and stored) outcome is `Victory q` if and only if the board then
contains some complete line — axis-aligned, diagonal, or hyper-diagonal,
anywhere on the board — all of whose cells are occupied by `q`; the local
check seeded at the just-placed position never misses a win and never reports
a spurious one. -/
theorem set_victory_iff_complete_line (g : Game) (p : Player) (pos : List Nat)
    (st : GameState) (g' : Game) (hreach : Reachable g)
    (h : g.set p pos = some (Except.ok st, g')) :
    g'.game_state = st ∧
    ∀ q : Player, st = GameState.Victory q ↔ ∃ roles, completeLine g' q roles := by
  have hwf := reach_wf hreach
  refine ⟨set_ok_game_state h, ?_⟩
  intro q
  constructor
  · intro hst
    exact (victory_to_line hwf h hst).2
  · rintro ⟨roles, hline⟩
    obtain ⟨h1, h2⟩ := completeLine_cases hwf h hline
    rw [h1, h2]

theorem set_victory_iff_complete_line_witness :
    Reachable gNew11 ∧ gWon11.game_state = GameState.Victory Player.X ∧
    (GameState.Victory Player.X = GameState.Victory Player.X ↔
      ∃ roles, completeLine gWon11 Player.X roles) := by
  have hreach : Reachable gNew11 := Reachable.new 1 1 gNew11 rfl
  have h := set_victory_iff_complete_line gNew11 Player.X [0]
    (GameState.Victory Player.X) gWon11 hreach (by decide)
  exact ⟨hreach, h.1, h.2 Player.X⟩

/-- C2: for every reachable game with an `Ongoing` outcome and every valid
placement, `set` returns `Ok (Victory player)` exactly when one of the
`3^D - 1` spec directions generated from the seed (per axis varying,
mirrored, or pinned to the seed, not all pinned) has all `S` cells occupied
by the placing player after the placement; and `set` never returns the
victory of the non-placing player. -/
theorem set_victory_iff_spec_direction (g : Game) (p : Player) (pos : List Nat)
    (st : GameState) (g' : Game) (hreach : Reachable g)
    (h : g.set p pos = some (Except.ok st, g')) :
    (st = GameState.Victory p ↔ ∃ m, 1 ≤ m ∧ m < 3 ^ g.dimensions ∧
      ∀ j, j < g.board_size → g'.cellAt (specDirCell g.board_size pos m j) = some p) ∧
    ∀ q, st = GameState.Victory q → q = p := by
  have hwf := reach_wf hreach
  refine ⟨?_, victory_only_placer hwf h⟩
  obtain ⟨hS, hD, hstates, hturns, hnoline⟩ := reach_wf hreach
  obtain ⟨h0, h1, h2, h3, h4, h5, hg'⟩ := set_ok_inv h
  subst hg'
  obtain ⟨st2, hst2, hiffV, hother⟩ := calculate_state_spec
    { g with states := g.states.set (g.idx pos) (some p), turns := g.turns + 1 }
    p pos h2 hS h3 (by simpa using hstates)
  rw [h5] at hst2
  injection hst2 with hst2
  subst hst2
  exact hiffV.trans (sweepWin_iff_specWin
    { g with states := g.states.set (g.idx pos) (some p), turns := g.turns + 1 }
    p pos h2)

theorem set_victory_iff_spec_direction_witness :
    Reachable gNew11 ∧
    ∃ m, 1 ≤ m ∧ m < 3 ^ gNew11.dimensions ∧
      ∀ j, j < gNew11.board_size →
        gWon11.cellAt (specDirCell gNew11.board_size [0] m j) = some Player.X := by
  have hreach : Reachable gNew11 := Reachable.new 1 1 gNew11 rfl
  have h := set_victory_iff_spec_direction gNew11 Player.X [0]
    (GameState.Victory Player.X) gWon11 hreach (by decide)
  exact ⟨hreach, h.1.mp rfl⟩

/-- C3: `set` performs its validation checks exactly in the order
finished-check, player-check, dimension-check, bounds-check, occupancy-check,
returning the error of the earliest failing check with the state unchanged,
and mutates only when every check passes. -/
theorem set_error_priority (g : Game) (p : Player) (pos : List Nat) :
    (g.game_state ≠ GameState.Ongoing →
      g.set p pos = some (Except.error SetError.GameFinished, g)) ∧
    (g.game_state = GameState.Ongoing → p ≠ g.active_player →
      g.set p pos = some (Except.error SetError.WrongPlayer, g)) ∧
    (g.game_state = GameState.Ongoing → p = g.active_player →
      pos.length ≠ g.dimensions →
      g.set p pos = some (Except.error SetError.InvalidDimension, g)) ∧
    (g.game_state = GameState.Ongoing → p = g.active_player →
      pos.length = g.dimensions → (¬ ∀ x ∈ pos, x < g.board_size) →
      g.set p pos = some (Except.error SetError.OutOfBounds, g)) ∧
    (∀ q : Player, g.game_state = GameState.Ongoing → p = g.active_player →
      pos.length = g.dimensions → (∀ x ∈ pos, x < g.board_size) →
      g.states[g.idx pos]? = some (some q) →
      g.set p pos = some (Except.error SetError.Occupied, g)) ∧
    (∀ st g', g.set p pos = some (Except.ok st, g') →
      g.game_state = GameState.Ongoing ∧ p = g.active_player ∧
      pos.length = g.dimensions ∧ (∀ x ∈ pos, x < g.board_size) ∧
      g.states[g.idx pos]? = some none) := by
  refine ⟨set_finished, set_wrongPlayer, set_invalidDimension, set_outOfBounds,
    fun q h0 h1 h2 h3 h4 => set_occupied h0 h1 h2 h3 h4, ?_⟩
  intro st g' h
  obtain ⟨h0, h1, h2, h3, h4, _, _⟩ := set_ok_inv h
  exact ⟨h0, h1, h2, h3, h4⟩

theorem set_error_priority_witness :
    (gWon11.game_state ≠ GameState.Ongoing ∧
      gWon11.set Player.X [0] = some (Except.error SetError.GameFinished, gWon11)) ∧
    (Player.O ≠ gNew23.active_player ∧
      gNew23.set Player.O [0, 0] = some (Except.error SetError.WrongPlayer, gNew23)) ∧
    gNew23.set Player.X [0] = some (Except.error SetError.InvalidDimension, gNew23) ∧
    gNew23.set Player.X [3, 0] = some (Except.error SetError.OutOfBounds, gNew23) := by
  refine ⟨⟨by decide, (set_error_priority gWon11 Player.X [0]).1 (by decide)⟩,
    ⟨by decide, (set_error_priority gNew23 Player.O [0, 0]).2.1 rfl (by decide)⟩,
    (set_error_priority gNew23 Player.X [0]).2.2.1 rfl rfl (by decide),
    (set_error_priority gNew23 Player.X [3, 0]).2.2.2.1 rfl rfl rfl (by decide)⟩

/-- C4: whenever `set` returns an error, the entire match state — board,
turn count, active player, and outcome — is exactly as before the call. -/
theorem set_error_atomic (g : Game) (p : Player) (pos : List Nat) (e : SetError)
    (g' : Game) (h : g.set p pos = some (Except.error e, g')) : g' = g :=
  set_error_inv h

theorem set_error_atomic_witness :
    gNew23.set Player.X [1, 1, 1] = some (Except.error SetError.InvalidDimension, gNew23) ∧
    gNew23 = gNew23 := by
  refine ⟨by decide, set_error_atomic gNew23 Player.X [1, 1, 1]
    SetError.InvalidDimension gNew23 (by decide)⟩

/-- C5: for dimensions and side length at least 1, `new` produces a board of
exactly `S^D` unoccupied cells with zero turns, `X` active, and an `Ongoing`
outcome; for a zero dimension or side length construction refuses. -/
theorem new_spec (D S : Nat) :
    (1 ≤ D → 1 ≤ S → ∃ g, Game.new D S = some g ∧ g.dimensions = D ∧
      g.board_size = S ∧ g.states = List.replicate (S ^ D) none ∧
      g.turns = 0 ∧ g.active_player = Player.X ∧
      g.game_state = GameState.Ongoing) ∧
    ((D = 0 ∨ S = 0) → Game.new D S = none) := by
  constructor
  · intro hD hS
    refine ⟨{ dimensions := D, board_size := S,
              states := List.replicate (S ^ D) none, turns := 0,
              active_player := Player.X, game_state := GameState.Ongoing },
      ?_, rfl, rfl, rfl, rfl, rfl, rfl⟩
    unfold Game.new
    rw [if_neg (by omega), if_neg (by omega)]
  · intro h
    unfold Game.new
    rcases h with hD | hS
    · by_cases hS0 : S = 0
      · rw [if_pos hS0]
      · rw [if_neg hS0, if_pos hD]
    · rw [if_pos hS]

theorem new_spec_witness :
    Game.new 0 3 = none ∧ Game.new 3 0 = none ∧ Game.new 2 3 = some gNew23 := by
  exact ⟨(new_spec 0 3).2 (Or.inl rfl), (new_spec 3 0).2 (Or.inr rfl), by decide⟩

/-- C6: every successful `set` increments the turn count by exactly 1, the
turn count of a reachable game never exceeds `S^D`, and a successful
placement that fills the board without a victory yields `Draw`. -/
theorem set_turns_spec (g : Game) (p : Player) (pos : List Nat) (st : GameState)
    (g' : Game) (hreach : Reachable g) (h : g.set p pos = some (Except.ok st, g')) :
    g.turns ≤ g.board_size ^ g.dimensions ∧
    g'.turns = g.turns + 1 ∧
    g'.turns ≤ g.board_size ^ g.dimensions ∧
    ((∀ q, st ≠ GameState.Victory q) →
      g'.turns = g.board_size ^ g.dimensions → st = GameState.Draw) := by
  have hwf := reach_wf hreach
  have hwf' := WF_step hwf h
  obtain ⟨hbs, hdm⟩ := set_ok_sizes h
  refine ⟨wf_turns_le hwf, set_ok_turns h, ?_, ?_⟩
  · have := wf_turns_le hwf'
    rwa [hbs, hdm] at this
  · intro hnv hfull
    have hd := set_ok_draw_or_ongoing hwf h hnv
    rw [if_pos hfull] at hd
    exact hd

theorem set_turns_spec_witness :
    Reachable gMid12 ∧ gDraw12.turns = gMid12.turns + 1 ∧
    GameState.Draw = GameState.Draw := by
  have hreach : Reachable gMid12 :=
    Reachable.step gNew12 Player.X [0] GameState.Ongoing gMid12
      (Reachable.new 1 2 gNew12 rfl) (by decide)
  have h := set_turns_spec gMid12 Player.O [1] GameState.Draw gDraw12 hreach (by decide)
  exact ⟨hreach, h.2.1, h.2.2.2 (fun q hq => GameState.noConfusion hq) (by decide)⟩

/-- C7: the outcome is monotonic: a successful placement only happens from an
`Ongoing` state, and once the outcome is terminal every further `set` call
returns `GameFinished` and leaves the game (board, turns, outcome) exactly
unchanged. -/
theorem finished_frozen (g : Game) (p : Player) (pos : List Nat) :
    (g.game_state ≠ GameState.Ongoing →
      g.set p pos = some (Except.error SetError.GameFinished, g)) ∧
    (∀ st g', g.set p pos = some (Except.ok st, g') →
      g.game_state = GameState.Ongoing) := by
  refine ⟨set_finished, ?_⟩
  intro st g' h
  exact (set_ok_inv h).1

theorem finished_frozen_witness :
    gWon11.game_state ≠ GameState.Ongoing ∧
    gWon11.set Player.O [0] = some (Except.error SetError.GameFinished, gWon11) := by
  exact ⟨by decide, (finished_frozen gWon11 Player.O [0]).1 (by decide)⟩

/-- C8: the other-player operation is total and self-inverse, freshly created
games start with `X` (the first player) active, and every successful
placement is made by the active player and hands the turn to the other
player — so successful placements alternate strictly starting with `X`. -/
theorem player_alternation :
    (∀ p : Player, p.not.not = p) ∧
    (∀ (D S : Nat) (g : Game), Game.new D S = some g → g.active_player = Player.X) ∧
    (∀ (g : Game) (p : Player) (pos : List Nat) (st : GameState) (g' : Game),
      g.set p pos = some (Except.ok st, g') →
      p = g.active_player ∧ g'.active_player = p.not) := by
  refine ⟨fun p => by cases p <;> rfl, ?_, ?_⟩
  · intro D S g h
    obtain ⟨_, _, rfl⟩ := new_inv h
    rfl
  · intro g p pos st g' h
    obtain ⟨_, h1, _, _, _, _, hg'⟩ := set_ok_inv h
    subst hg'
    exact ⟨h1, rfl⟩

theorem player_alternation_witness :
    gNew11.active_player = Player.X ∧ gWon11.active_player = Player.O := by
  refine ⟨player_alternation.2.1 1 1 gNew11 rfl, ?_⟩
  have h := player_alternation.2.2 gNew11 Player.X [0]
    (GameState.Victory Player.X) gWon11 (by decide)
  exact h.2

/-- C9: on a board of side length 1 in any dimension at least 1, the very
first valid placement (by `X` at the all-zero position) is detected as an
immediate win: `set` returns `Ok (Victory X)` even though the board is
simultaneously full. -/
theorem s1_first_move_wins (D : Nat) (hD : 1 ≤ D) (g : Game)
    (hnew : Game.new D 1 = some g) :
    ∃ g', g.set Player.X (List.replicate D 0)
      = some (Except.ok (GameState.Victory Player.X), g') :=
  single_cell_win hD hnew

theorem s1_first_move_wins_witness :
    gNew31.set Player.X (List.replicate 3 0)
      = some (Except.ok (GameState.Victory Player.X), gWon31) := by
  obtain ⟨g', hg'⟩ := s1_first_move_wins 3 (by omega) gNew31 rfl
  have hd : gNew31.set Player.X (List.replicate 3 0)
      = some (Except.ok (GameState.Victory Player.X), gWon31) := by decide
  rw [hg'] at hd
  simp only [Option.some_inj, Prod.mk.injEq] at hd
  rw [hg', hd.2]

/-- C10: all board indexing is in bounds: the flat index of any coordinate
list of the right length with coordinates below `S` is below `S^D`; every
position generated during the win-detection sweep keeps its coordinates below
`S`; hence on reachable games no slice access in `set` (and the sweep it
runs) can go out of bounds — the panic branch of the embedding is
unreachable. -/
theorem indexing_in_bounds :
    (∀ g : Game, ∀ pos : List Nat, pos.length = g.dimensions →
      (∀ x ∈ pos, x < g.board_size) → g.idx pos < g.board_size ^ g.dimensions) ∧
    (∀ (S : Nat) (seed : List Nat) (dim o j : Nat), 1 ≤ S → j < S →
      (∀ x ∈ seed, x < S) → ∀ x ∈ sweepCell S seed dim o j, x < S) ∧
    (∀ g p pos, Reachable g → g.set p pos ≠ none) := by
  refine ⟨?_, ?_, ?_⟩
  · intro g pos hlen hco
    have := Game.idx_lt (g := g) hco
    rwa [hlen] at this
  · intro S seed dim o j hS hj hseed
    exact sweepCell_coord_lt hS hj hseed
  · intro g p pos hreach
    exact set_ne_none (reach_wf hreach) p pos

theorem indexing_in_bounds_witness :
    gNew23.idx [2, 2] < 9 ∧ gNew23.set Player.X [5, 5] ≠ none := by
  refine ⟨?_, indexing_in_bounds.2.2 gNew23 Player.X [5, 5]
    (Reachable.new 2 3 gNew23 rfl)⟩
  exact indexing_in_bounds.1 gNew23 [2, 2] rfl (by decide)
